import Mathlib

/-!
Shallow embedding of the Avalon A1126pro firmware-analysis pipeline
(`src/analysis/firmware_analyzer.py`, `src/analysis/decompiler.py`,
`src/analysis/disassembler.py`) and proofs about it.

Byte buffers are modelled as `List Nat` (each entry a byte value 0..255);
Python `float` confidences are modelled as exact rationals `ℚ`;
Python dicts keyed in insertion order are modelled as association lists.
-/

namespace A1126

/-- Byte lookup with an out-of-range sentinel 256, which never equals a real
byte value, so slice comparisons against literal patterns fail out of range
exactly as Python slicing does. -/
def byteAt (data : List Nat) (i : Nat) : Nat :=
  data.getD i 256

/-- Contiguous slice `data[off : off+n]` as a list. -/
def slice (data : List Nat) (off n : Nat) : List Nat :=
  (data.drop off).take n

/-- ASCII bytes of a Lean string (used only to build concrete test buffers). -/
def strBytes (s : String) : List Nat :=
  s.data.map Char.toNat

/-- Decode a list of ASCII byte values to a string.  In the source the byte
runs handed to `bytes.decode` consist only of bytes 9/10/13/32..126, on which
both the `utf-8` and `ascii` codecs succeed and decode byte-per-char, so the
`try/except` around the decode never fires for extracted runs. -/
def decodeBytes (l : List Nat) : String :=
  String.mk (l.map Char.ofNat)

/-! ### String Extractor

`K210FirmwareAnalyzer.extract_strings` (src/analysis/firmware_analyzer.py,
lines 80-101).  The Python loop walks the buffer once; a run of qualifying
bytes is flushed into `strings[start_offset]` when a non-qualifying byte is
seen and the run has length at least `min_length`.  There is no flush after
the loop, so a qualifying run that reaches the end of the buffer is dropped.
The result dict (keys inserted in ascending offset order; for
`min_length ≥ 1` all keys are distinct) is modelled as a list of
`(start_offset, text)` pairs in insertion order. -/

/-- Predicate of `extract_strings`: printable ASCII 32..126 or whitespace
bytes 9/10/13 (the source applies the whitespace alternative
unconditionally). -/
def isStringByte (b : Nat) : Bool :=
  (32 ≤ b && b < 127) || b == 9 || b == 10 || b == 13

/-- One step per byte of the `extract_strings` loop, written as recursion on
the remaining buffer; `i` is the absolute offset of the head of the remaining
buffer, `cur` the current run, `start` the Python `start_offset` variable. -/
def extractAux (minLen : Nat) : List Nat → Nat → List Nat → Nat → List (Nat × String)
  | [], _, _, _ => []
  | b :: rest, i, cur, start =>
    if isStringByte b then
      extractAux minLen rest (i + 1) (cur ++ [b]) (if cur.isEmpty then i else start)
    else
      if minLen ≤ cur.length then
        (start, decodeBytes cur) :: extractAux minLen rest (i + 1) [] start
      else
        extractAux minLen rest (i + 1) [] start

/-- `K210FirmwareAnalyzer.extract_strings(min_length)`. -/
def extract_strings (data : List Nat) (minLen : Nat) : List (Nat × String) :=
  extractAux minLen data 0 [] 0

/-- A maximal qualifying run of `n` bytes at offset `off` that is terminated
by a non-qualifying byte inside the buffer (the property the extracted
records are shown to have). -/
def IsTermRun (data : List Nat) (minLen off n : Nat) : Prop :=
  minLen ≤ n ∧
  (∀ k, k < n → isStringByte (byteAt data (off + k)) = true) ∧
  off + n < data.length ∧
  isStringByte (byteAt data (off + n)) = false ∧
  (off = 0 ∨ isStringByte (byteAt data (off - 1)) = false)

/-! ### Cross-Reference Index

`A1126ProDecompiler._build_string_xrefs` (src/analysis/decompiler.py, lines
144-149): `xrefs.setdefault(s, []).append(addr)` over `self.strings.items()`.
The Python dicts preserve insertion order, so both the string table (keyed by
offset) and the xref index (keyed by text) are modelled as association
lists; `addXref` is `setdefault(...).append(...)`: it appends the offset to
an existing entry for the text, or adds a new entry at the end. -/

/-- Lookup of the offset list stored under a text key (empty if absent). -/
def xlookup (k : String) : List (String × List Nat) → List Nat
  | [] => []
  | (k2, v) :: rest => if k2 = k then v else xlookup k rest

/-- One `xrefs.setdefault(s, []).append(addr)` step. -/
def addXref (addr : Nat) (s : String) : List (String × List Nat) → List (String × List Nat)
  | [] => [(s, [addr])]
  | (k2, v) :: rest =>
    if k2 = s then (k2, v ++ [addr]) :: rest else (k2, v) :: addXref addr s rest

/-- `A1126ProDecompiler._build_string_xrefs` over a string table given as
`(offset, text)` pairs in scan order. -/
def build_string_xrefs (strs : List (Nat × String)) : List (String × List Nat) :=
  strs.foldl (fun m p => addXref p.1 p.2 m) []

/-! ### Signature Matcher

`A1126ProDecompiler.find_function_by_strings` and
`A1126ProDecompiler.match_known_functions` (src/analysis/decompiler.py,
lines 151-206).  Python `float` confidences are modelled as exact rationals;
`list.sort()` and `sorted(...)` (stable) are modelled by
`List.insertionSort`, which is a stable sort with the same `≤`-style
comparator discipline. -/

/-- ASCII lowercasing of `str.lower()`; the index keys and signature strings
are ASCII text, on which Python and `Char.toLower` agree. -/
def lowerStr (s : String) : String :=
  String.mk (s.data.map Char.toLower)

/-- Substring containment, the semantics of the Python `in` operator on
strings. -/
def containsSub : List Char → List Char → Bool
  | hay, needle =>
    if needle.isPrefixOf hay then true
    else
      match hay with
      | [] => false
      | _ :: t => containsSub t needle

/-- String containment `needle in hay`. -/
def strContains (hay needle : String) : Bool :=
  containsSub hay.data needle.data

/-- The offset-collection loop of `find_function_by_strings`: for each target
string, every index key containing it (case-insensitively) contributes all
of its offsets, in index order. -/
def collectMatches (xrefs : List (String × List Nat)) (targets : List String) : List Nat :=
  (targets.map (fun ts =>
    (xrefs.map (fun p =>
      if strContains (lowerStr p.1) (lowerStr ts) then p.2 else [])).flatten)).flatten

/-- The clustering loop: `cur` is the current cluster (always non-empty),
a new element joins it when its distance to the cluster's last element is
under 0x1000, otherwise the cluster is closed and a new one starts.  On
sorted input `Nat` subtraction agrees with Python's `int` subtraction; on
arbitrary input both make a smaller element join (Python because a negative
gap is `< 0x1000`, here because truncated subtraction yields 0). -/
def clustersAux : List Nat → List Nat → List (List Nat)
  | cur, [] => [cur]
  | cur, a :: rest =>
    if a - cur.getLastD 0 < 4096 then clustersAux (cur ++ [a]) rest
    else cur :: clustersAux [a] rest

/-- Clustering of the sorted offset list (lines 165-176 of the source). -/
def buildClusters : List Nat → List (List Nat)
  | [] => []
  | m :: rest => clustersAux [m] rest

/-- Cluster centers and confidences (lines 178-183): representative offset
`cluster[len(cluster)//2]`, confidence `min(size / number_of_targets, 1)`. -/
def clusterResults (clusters : List (List Nat)) (nTargets : Nat) : List (Nat × ℚ) :=
  clusters.map (fun c =>
    (c.getD (c.length / 2) 0, min ((c.length : ℚ) / (nTargets : ℚ)) 1))

/-- The clusters produced inside `find_function_by_strings` for a given
index and target list. -/
def pipelineClusters (xrefs : List (String × List Nat)) (targets : List String) :
    List (List Nat) :=
  buildClusters ((collectMatches xrefs targets).insertionSort (· ≤ ·))

/-- `A1126ProDecompiler.find_function_by_strings`: collect offsets, return
`[]` if none, else cluster the sorted offsets, score each cluster, sort by
descending confidence (stably) and keep at most 5 results. -/
def find_function_by_strings (xrefs : List (String × List Nat))
    (targets : List String) : List (Nat × ℚ) :=
  if (collectMatches xrefs targets).isEmpty then []
  else
    ((clusterResults (pipelineClusters xrefs targets) targets.length).insertionSort
      (fun a b => b.2 ≤ a.2)).take 5

/-- `FunctionSignature` dataclass of the source. -/
structure FunctionSignature where
  name : String
  strings : List String
  opcodes : List Nat
  source_file : String

/-- `ReconstructedFunction` dataclass of the source. -/
structure ReconstructedFunction where
  name : String
  address : Nat
  size : Nat
  source_file : String
  source_line : Nat
  confidence : ℚ
  decompiled_code : String

/-- The static `KNOWN_SIGNATURES` catalog of `A1126ProDecompiler`. -/
def KNOWN_SIGNATURES : List FunctionSignature :=
  [⟨"avalon10_init", ["avalon10", "init", "device"], [], "driver-avalon10.c"⟩,
   ⟨"avalon10_scanhash", ["avalon10_scanhash", "hash"], [], "driver-avalon10.c"⟩,
   ⟨"avalon10_statline_before", ["avalon10_statline_before"], [], "driver-avalon10.c"⟩,
   ⟨"avalon10_prepare", ["avalon10_prepare"], [], "driver-avalon10.c"⟩,
   ⟨"pool_active", ["Pool", "active", "stratum"], [], "cgminer.c"⟩,
   ⟨"submit_nonce", ["submit", "nonce", "share"], [], "cgminer.c"⟩,
   ⟨"sha256_transform", ["sha256"], [], "sha2.c"⟩,
   ⟨"lwip_init", ["lwIP", "init", "netif"], [], "lwip/init.c"⟩,
   ⟨"vTaskCreate", ["Task", "Create", "FreeRTOS"], [], "tasks.c"⟩,
   ⟨"spi_send_data", ["spi", "send", "data"], [], "spi.c"⟩,
   ⟨"gpio_set_pin", ["gpio", "pin"], [], "gpio.c"⟩,
   ⟨"uart_send", ["uart", "send"], [], "uart.c"⟩]

/-- The per-signature body of `match_known_functions`: walk the ranked
candidates in order and keep the first one whose confidence is strictly
above 0.3, if any (the Python loop breaks right after appending it). -/
def matchSignature (xrefs : List (String × List Nat)) (sig : FunctionSignature) :
    Option ReconstructedFunction :=
  ((find_function_by_strings xrefs sig.strings).find?
      (fun r => decide ((3 : ℚ)/10 < r.2))).map
    (fun r => ⟨sig.name, r.1, 0, sig.source_file, 0, r.2, ""⟩)

/-- `A1126ProDecompiler.match_known_functions` over the static catalog. -/
def match_known_functions (xrefs : List (String × List Nat)) :
    List ReconstructedFunction :=
  KNOWN_SIGNATURES.filterMap (matchSignature xrefs)

instance : IsTrans (Nat × String) (fun p q => p.1 < q.1) :=
  ⟨fun _ _ _ h1 h2 => lt_trans h1 h2⟩

instance : IsTotal (Nat × ℚ) (fun a b => b.2 ≤ a.2) :=
  ⟨fun a b => le_total b.2 a.2⟩

instance : IsTrans (Nat × ℚ) (fun a b => b.2 ≤ a.2) :=
  ⟨fun _ _ _ h1 h2 => le_trans h2 h1⟩

/-! ### Function Boundary Detector

`RiscVDisassembler.find_function_boundaries` (src/analysis/disassembler.py,
lines 115-152).  The Python loop walks 2-byte-aligned positions `i` in
`range(0, min(len(data) - 4, 0x100000), 2)`; at a position whose two bytes
equal one of four prologue patterns it scans
`range(i + 4, min(i + 0x2000, len(data) - 2), 2)` for the epilogue bytes
82 80, appends `(i, j + 2)` on success, and in all cases continues the outer
loop at `i + 2`.  `range(a, b, 2)` is modelled by `List.range'` with
`(b - a + 1) / 2` elements, which is exact also when the Python bound is
negative (the Nat subtraction then gives an empty range too). -/

/-- The four 2-byte prologue patterns of the source. -/
def prologuePatterns : List (Nat × Nat) :=
  [(0x01, 0x11), (0x39, 0x71), (0x79, 0x71), (0x41, 0x11)]

/-- Whether `data[i : i+2]` equals one of the prologue patterns. -/
def isPrologueAt (data : List Nat) (i : Nat) : Bool :=
  prologuePatterns.any (fun p => byteAt data i == p.1 && byteAt data (i + 1) == p.2)

/-- Number of positions of the outer scan loop. -/
def numScan (data : List Nat) : Nat :=
  (min (data.length - 4) 0x100000 + 1) / 2

/-- The outer loop's positions 0, 2, 4, ... -/
def scanPositions (data : List Nat) : List Nat :=
  List.range' 0 (numScan data) 2

/-- Number of positions of the epilogue search window for a prologue at
`i`. -/
def epilogueCount (data : List Nat) (i : Nat) : Nat :=
  (min (i + 0x2000) (data.length - 2) - (i + 4) + 1) / 2

/-- First epilogue position (bytes 82 80) in the bounded window after `i`,
if any. -/
def epilogueSearch (data : List Nat) (i : Nat) : Option Nat :=
  (List.range' (i + 4) (epilogueCount data i) 2).find?
    (fun j => byteAt data j == 0x82 && byteAt data (j + 1) == 0x80)

/-- The candidate range emitted at a scan position, if any. -/
def candidateAt (data : List Nat) (i : Nat) : Option (Nat × Nat) :=
  if isPrologueAt data i then (epilogueSearch data i).map (fun j => (i, j + 2))
  else none

/-- All candidates collected by the scan loop, in scan order. -/
def allCandidates (data : List Nat) : List (Nat × Nat) :=
  (scanPositions data).filterMap (candidateAt data)

/-- `RiscVDisassembler.find_function_boundaries` (with its `[:200]` cap). -/
def find_function_boundaries (data : List Nat) : List (Nat × Nat) :=
  (allCandidates data).take 200

/-- Sequential formulation of the same scan: after handling position `i` —
whether or not a candidate was emitted there — continue at `i + 2`. -/
def scanFrom (data : List Nat) : Nat → Nat → List (Nat × Nat)
  | 0, _ => []
  | n + 1, i =>
    match candidateAt data i with
    | some c => c :: scanFrom data n (i + 2)
    | none => scanFrom data n (i + 2)

/-! ### Instruction Record Parser

`RiscVDisassembler.disassemble_range`, `RiscVDisassembler.analyze_function`
and the per-range loop of `generate_annotated_disassembly`
(src/analysis/disassembler.py, lines 78-113, 154-208, 243-245).  The external
objdump invocation is modelled as a function from a candidate range to
`Option (List String)`: `none` models a raised/timeout subprocess error (the
`except` path returning `[]`), `some lines` the stdout lines.  Python string
helpers are modelled on `Char` lists; `str.strip()` is modelled by
`String.trim` (ASCII whitespace; the codepoints on which they differ do not
occur in disassembly text).  `bytes.fromhex` raising on malformed hex is not
modelled (no claim exercises it): the model returns the bytes of the valid
even-length prefix. -/

/-- The `Instruction` dataclass. -/
structure Instruction where
  address : Int
  raw : List Nat
  mnemonic : String
  operands : String
  comment : String

/-- The `Function` dataclass (named `FunctionRec` here; `end` is a Lean
keyword, the field is named `stop`). -/
structure FunctionRec where
  name : String
  start : Nat
  stop : Nat
  instructions : List Instruction
  calls : List Nat
  strings_refs : List Nat

/-- The tab separator used by `line.split('\t')`. -/
def sepTab : String := String.mk [Char.ofNat 9]

/-- The empty string default of the field accesses. -/
def emptyStr : String := String.mk []

def mnJal : String := String.mk [Char.ofNat 106, Char.ofNat 97, Char.ofNat 108]

def mnCall : String := String.mk [Char.ofNat 99, Char.ofNat 97, Char.ofNat 108, Char.ofNat 108]

def mnLui : String := String.mk [Char.ofNat 108, Char.ofNat 117, Char.ofNat 105]

def mnAuipc : String :=
  String.mk [Char.ofNat 97, Char.ofNat 117, Char.ofNat 105, Char.ofNat 112, Char.ofNat 99]

/-- Python `s.rstrip(':')`. -/
def rstripColon (s : String) : String :=
  String.mk ((s.data.reverse.dropWhile (fun c => c == ':')).reverse)

/-- Hexadecimal digit value, upper or lower case. -/
def hexDigitVal? (c : Char) : Option Nat :=
  if 48 ≤ c.toNat ∧ c.toNat ≤ 57 then some (c.toNat - 48)
  else if 97 ≤ c.toNat ∧ c.toNat ≤ 102 then some (c.toNat - 87)
  else if 65 ≤ c.toNat ∧ c.toNat ≤ 70 then some (c.toNat - 55)
  else none

/-- Value of a non-empty all-hex-digit character list, if it is one. -/
def hexNum? (l : List Char) : Option Nat :=
  if l.isEmpty then none
  else l.foldl (fun acc c =>
    match acc, hexDigitVal? c with
    | some n, some d => some (n * 16 + d)
    | _, _ => none) (some 0)

/-- Strip one leading `0x`/`0X`. -/
def stripHex0x : List Char → List Char
  | '0' :: 'x' :: r => r
  | '0' :: 'X' :: r => r
  | l => l

/-- Python `int(s, 16)` as far as exercised here: optional surrounding
whitespace, optional sign, optional `0x` prefix, hex digits (digit-group
underscores are not modelled). -/
def pyIntHex (s : String) : Option Int :=
  match s.trim.data with
  | '-' :: r => (hexNum? (stripHex0x r)).map (fun n => -(n : Int))
  | '+' :: r => (hexNum? (stripHex0x r)).map (fun n => (n : Int))
  | l => (hexNum? (stripHex0x l)).map (fun n => (n : Int))

/-- Lower-case hex digit class of the regex `0x([0-9a-f]+)`. -/
def isLowerHex (c : Char) : Bool :=
  (48 ≤ c.toNat && c.toNat ≤ 57) || (97 ≤ c.toNat && c.toNat ≤ 102)

/-- Value of a lower-hex character list (all characters assumed valid). -/
def hexVal (l : List Char) : Nat :=
  l.foldl (fun n c => n * 16 + ((hexDigitVal? c).getD 0)) 0

/-- The regex group match at one position: literal `0x` followed by a
maximal non-empty run of `[0-9a-f]`. -/
def hexGroupAt : List Char → Option (List Char)
  | '0' :: 'x' :: r =>
    let g := r.takeWhile isLowerHex
    if g.isEmpty then none else some g
  | _ => none

/-- `re.search(r'0x([0-9a-f]+)', s)`: the group of the leftmost match. -/
def findHexLiteral : List Char → Option (List Char)
  | [] => none
  | c :: t =>
    match hexGroupAt (c :: t) with
    | some g => some g
    | none => findHexLiteral t

/-- `bytes.fromhex` on the space-stripped raw field (valid prefix only; a
malformed tail, which would raise in Python, yields no further bytes). -/
def bytesFromHex : List Char → List Nat
  | a :: b :: r =>
    match hexDigitVal? a, hexDigitVal? b with
    | some x, some y => (x * 16 + y) :: bytesFromHex r
    | _, _ => []
  | _ => []

/-- One iteration of the `for line in disasm` loop of `analyze_function`:
the state is `(instructions, calls, string_refs)`. -/
def parseLine (strs : List (Nat × String))
    (st : List Instruction × List Nat × List Nat) (line : String) :
    List Instruction × List Nat × List Nat :=
  let parts := line.splitOn sepTab
  if 2 ≤ parts.length then
    match pyIntHex (rstripColon (parts.getD 0 emptyStr)) with
    | none => st
    | some addr =>
      let raw_hex := (parts.getD 1 emptyStr).trim
      let mnemonic := if 2 < parts.length then (parts.getD 2 emptyStr).trim else emptyStr
      let operands := if 3 < parts.length then (parts.getD 3 emptyStr).trim else emptyStr
      let calls :=
        if strContains mnemonic mnJal || strContains mnemonic mnCall then
          match findHexLiteral operands.data with
          | some g => st.2.1 ++ [hexVal g]
          | none => st.2.1
        else st.2.1
      let refs :=
        if strContains mnemonic mnLui || strContains mnemonic mnAuipc then
          match findHexLiteral operands.data with
          | some g =>
            if strs.any (fun p => p.1 == hexVal g) then st.2.2 ++ [hexVal g]
            else st.2.2
          | none => st.2.2
        else st.2.2
      let raw := if raw_hex.isEmpty then []
        else bytesFromHex (raw_hex.data.filter (fun c => c != ' '))
      (st.1 ++ [⟨addr, raw, mnemonic, operands, emptyStr⟩], calls, refs)
  else st

/-- Upper-case hex digit character. -/
def hexDigitChar (n : Nat) : Char :=
  if n < 10 then Char.ofNat (48 + n) else Char.ofNat (55 + n)

/-- Upper-case hex digits of a number, most significant first. -/
def hexDigitsUpper (n : Nat) : List Char :=
  if h : n < 16 then [hexDigitChar n]
  else hexDigitsUpper (n / 16) ++ [hexDigitChar (n % 16)]
  termination_by n
  decreasing_by
    apply Nat.div_lt_self
    · omega
    · omega

/-- The `08X` formatting used for the default function name. -/
def toHex8 (n : Nat) : String :=
  String.mk (List.replicate (8 - (hexDigitsUpper n).length) '0' ++ hexDigitsUpper n)

/-- `RiscVDisassembler.analyze_function`: `None` exactly when the backend
listing is empty, otherwise one `FunctionRec` built from the parsed lines. -/
def analyze_function (strs : List (Nat × String)) (start stop : Nat)
    (disasm : List String) : Option FunctionRec :=
  if disasm.isEmpty then none
  else
    let st := disasm.foldl (parseLine strs) ([], [], [])
    some ⟨String.append (String.mk [Char.ofNat 115, Char.ofNat 117, Char.ofNat 98, Char.ofNat 95]) (toHex8 start),
      start, stop, st.1, st.2.1, st.2.2⟩

/-- `RiscVDisassembler.disassemble_range`, over the backend's outcome: a
raised error or timeout (`none`) yields `[]`; otherwise the stdout lines are
filtered to those containing both a colon and a tab, stripped. -/
def disassemble_range (backendResult : Option (List String)) : List String :=
  match backendResult with
  | none => []
  | some lines =>
    (lines.filter (fun l => l.contains ':' && l.contains (Char.ofNat 9))).map String.trim

/-- Analysis of one candidate range given the backend `B`. -/
def processRange (strs : List (Nat × String))
    (B : Nat × Nat → Option (List String)) (r : Nat × Nat) : Option FunctionRec :=
  analyze_function strs r.1 r.2 (disassemble_range (B r))

/-- Per-range outcomes of the caller loop of
`generate_annotated_disassembly`, which walks `func_bounds[:50]`. -/
def runOutcomes (strs : List (Nat × String))
    (B : Nat × Nat → Option (List String)) (bounds : List (Nat × Nat)) :
    List (Option FunctionRec) :=
  (bounds.take 50).map (processRange strs B)

/-- The summaries the caller actually processes (the `if func:` filter). -/
def runSummaries (strs : List (Nat × String))
    (B : Nat × Nat → Option (List String)) (bounds : List (Nat × Nat)) :
    List FunctionRec :=
  (runOutcomes strs B bounds).filterMap id

/-- The number of skipped ranges of a run: those whose analysis returned a
failure.  (The source keeps no explicit counter; this is the run-level
count of skipped ranges the property speaks about.) -/
def skippedCount (strs : List (Nat × String))
    (B : Nat × Nat → Option (List String)) (bounds : List (Nat × Nat)) : Nat :=
  List.countP (fun o => o.isNone) (runOutcomes strs B bounds)

/-! ### Parameter Extractor

`A1126ProDecompiler.extract_avalon10_parameters` (src/analysis/decompiler.py,
lines 208-246).  The three `re.finditer` patterns are hand-compiled: each is
a literal/character-class pattern on which the leftmost-match, greedy-class
regex semantics coincide with maximal munch, and `finditer` resumes at each
match's end.  `voltage.level.*?(\d+)` (IGNORECASE) is the one lazy pattern:
`.` is any byte except newline, and the lazy `.*?` stops at the first digit
reachable without crossing a newline. -/

def isDigitByte (b : Nat) : Bool :=
  48 ≤ b && b ≤ 57

/-- The byte class of the regex `\s`. -/
def isSpaceByteRe (b : Nat) : Bool :=
  b == 32 || b == 9 || b == 10 || b == 13 || b == 11 || b == 12

/-- The byte class `[a-z0-9-]` of the option pattern. -/
def isOptByte (b : Nat) : Bool :=
  (97 ≤ b && b ≤ 122) || isDigitByte b || b == 45

/-- ASCII lower-casing of a byte (what `re.IGNORECASE` does in bytes mode). -/
def toLowerByte (b : Nat) : Nat :=
  if 65 ≤ b ∧ b ≤ 90 then b + 32 else b

/-- Literal byte-sequence match at a position. -/
def bytesAtEq : List Nat → Nat → List Nat → Bool
  | _, _, [] => true
  | data, i, c :: cs => (byteAt data i == c) && bytesAtEq data (i + 1) cs

/-- Case-insensitive literal match (the literal given in lower case). -/
def bytesAtCI : List Nat → Nat → List Nat → Bool
  | _, _, [] => true
  | data, i, c :: cs => (toLowerByte (byteAt data i) == c) && bytesAtCI data (i + 1) cs

/-- Length of the maximal run of bytes satisfying `p` from position `i`. -/
def runLenFrom (p : Nat → Bool) (data : List Nat) (i : Nat) : Nat :=
  ((data.drop i).takeWhile p).length

/-- Decimal value of a digit-byte list. -/
def natFromDigits (l : List Nat) : Nat :=
  l.foldl (fun n d => n * 10 + (d - 48)) 0

/-- The bytes of the literal `range`. -/
def litRange : List Nat := [114, 97, 110, 103, 101]

/-- The bytes of the literal `--avalon10-`. -/
def litOptPre : List Nat := [45, 45, 97, 118, 97, 108, 111, 110, 49, 48, 45]

/-- The bytes of the literal `voltage`. -/
def litVoltage : List Nat := [118, 111, 108, 116, 97, 103, 101]

/-- The bytes of the literal `level`. -/
def litLevel : List Nat := [108, 101, 118, 101, 108]

/-- One match attempt of `range\s*\[\s*(\d+)\s*,\s*(\d+)\s*\]` at
position `i`: the two digit groups and the match end on success. -/
def matchRangeAt (data : List Nat) (i : Nat) : Option ((Nat × Nat) × Nat) :=
  if bytesAtEq data i litRange then
    let a2 := i + 5 + runLenFrom isSpaceByteRe data (i + 5)
    if byteAt data a2 == 91 then
      let b2 := a2 + 1 + runLenFrom isSpaceByteRe data (a2 + 1)
      let d1 := runLenFrom isDigitByte data b2
      if d1 == 0 then none
      else
        let c2 := b2 + d1 + runLenFrom isSpaceByteRe data (b2 + d1)
        if byteAt data c2 == 44 then
          let e2 := c2 + 1 + runLenFrom isSpaceByteRe data (c2 + 1)
          let d2 := runLenFrom isDigitByte data e2
          if d2 == 0 then none
          else
            let f2 := e2 + d2 + runLenFrom isSpaceByteRe data (e2 + d2)
            if byteAt data f2 == 93 then
              some ((natFromDigits (slice data b2 d1),
                natFromDigits (slice data e2 d2)), f2 + 1)
            else none
        else none
    else none
  else none

/-- One match attempt of `--avalon10-([a-z0-9-]+)` at position `i`. -/
def matchOptionAt (data : List Nat) (i : Nat) : Option (String × Nat) :=
  if bytesAtEq data i litOptPre then
    let d := runLenFrom isOptByte data (i + 11)
    if d == 0 then none
    else some (decodeBytes (slice data (i + 11) d), i + 11 + d)
  else none

/-- One match attempt of `voltage.level.*?(\d+)` (IGNORECASE) at position
`i`. -/
def matchVoltAt (data : List Nat) (i : Nat) : Option (Nat × Nat) :=
  if bytesAtCI data i litVoltage then
    if i + 7 < data.length && byteAt data (i + 7) != 10 then
      if bytesAtCI data (i + 8) litLevel then
        let m := runLenFrom (fun b => !(isDigitByte b) && b != 10) data (i + 13)
        let j := i + 13 + m
        if isDigitByte (byteAt data j) then
          let d := runLenFrom isDigitByte data j
          some (natFromDigits (slice data j d), j + d)
        else none
      else none
    else none
  else none

/-- The scan of `re.finditer`: try each position left to right, emit the
leftmost matches and resume at each match's end (advancing at least one
position); the fuel bounds the number of visited positions. -/
def finditerAux {α : Type} (M : List Nat → Nat → Option (α × Nat))
    (data : List Nat) : Nat → Nat → List α
  | 0, _ => []
  | fuel + 1, i =>
    if data.length < i then []
    else
      match M data i with
      | some (a, e) => a :: finditerAux M data fuel (if i < e then e else i + 1)
      | none => finditerAux M data fuel (i + 1)

/-- `re.finditer(pattern, data)` for a hand-compiled matcher. -/
def finditer {α : Type} (M : List Nat → Nat → Option (α × Nat))
    (data : List Nat) : List α :=
  finditerAux M data (data.length + 2) 0

/-- The result dict of `extract_avalon10_parameters` (the two categories the
source never fills stay empty). -/
structure AvalonParams where
  frequency_options : List (Nat × Nat)
  voltage_levels : List Nat
  temperature_targets : List Nat
  fan_speeds : List Nat
  command_options : List String

/-- `A1126ProDecompiler.extract_avalon10_parameters`: a range pair is kept
when `25 <= low <= 100 and 500 <= high <= 1500`; option tokens are appended
only when not already present; a voltage value is kept when
`0 <= v <= 100`, without any deduplication. -/
def extract_avalon10_parameters (data : List Nat) : AvalonParams :=
  let freqs := (finditer matchRangeAt data).foldl (fun acc lh =>
    if 25 ≤ lh.1 ∧ lh.1 ≤ 100 ∧ 500 ≤ lh.2 ∧ lh.2 ≤ 1500 then acc ++ [lh]
    else acc) []
  let opts := (finditer matchOptionAt data).foldl (fun acc o =>
    if o ∈ acc then acc else acc ++ [o]) []
  let volts := (finditer matchVoltAt data).foldl (fun acc v =>
    if 0 ≤ v ∧ v ≤ 100 then acc ++ [v] else acc) []
  ⟨freqs, volts, [], [], opts⟩

/-! ### Proofs -/

lemma drop_cons_parts {data : List Nat} {i b : Nat} {rest : List Nat}
    (h : data.drop i = b :: rest) :
    data.get? i = some b ∧ byteAt data i = b ∧ data.drop (i + 1) = rest ∧
      i < data.length := by
  have hget : data.get? i = some b := by
    have h0 := List.get?_drop data i 0
    rw [h] at h0
    simpa using h0.symm
  refine ⟨hget, ?_, ?_, ?_⟩
  · show (data.get? i).getD 256 = b
    rw [hget]
    rfl
  · have h1 := List.drop_drop 1 i data
    rw [h] at h1
    simpa using h1.symm
  · by_contra hlt
    push_neg at hlt
    rw [List.drop_eq_nil_of_le hlt] at h
    exact List.noConfusion h

lemma slice_extend {data : List Nat} {start n i b : Nat}
    (hsum : start + n = i) (hget : data.get? i = some b) :
    slice data start (n + 1) = slice data start n ++ [b] := by
  unfold slice
  rw [List.take_succ]
  have : (data.drop start).get? n = some b := by
    rw [List.get?_drop, hsum, hget]
  rw [List.get?_eq_getElem?] at this
  rw [this]
  rfl

lemma slice_qualifies {data : List Nat} {start : Nat} {cur : List Nat}
    (hslice : slice data start cur.length = cur)
    (hall : ∀ b ∈ cur, isStringByte b = true) :
    ∀ k, k < cur.length → isStringByte (byteAt data (start + k)) = true := by
  intro k hk
  have hget : data.get? (start + k) = cur.get? k := by
    have h1 : (slice data start cur.length).get? k = cur.get? k := by rw [hslice]
    unfold slice at h1
    rw [List.get?_take hk, List.get?_drop] at h1
    exact h1
  have hgk : cur.get? k = some (cur.get ⟨k, hk⟩) := List.get?_eq_get hk
  have : byteAt data (start + k) = cur.get ⟨k, hk⟩ := by
    show (data.get? (start + k)).getD 256 = _
    rw [hget, hgk]
    rfl
  rw [this]
  exact hall _ (List.get_mem cur k hk)

/-- Soundness of the extractor loop: any record emitted from a loop state
consistent with the buffer is a maximal terminated qualifying run. -/
lemma extractAux_sound (minLen : Nat) (hm : 1 ≤ minLen) (data : List Nat) :
    ∀ (remaining : List Nat) (i start : Nat) (cur : List Nat),
    data.drop i = remaining →
    (cur ≠ [] →
      start + cur.length = i ∧
      slice data start cur.length = cur ∧
      (∀ b ∈ cur, isStringByte b = true) ∧
      (start = 0 ∨ isStringByte (byteAt data (start - 1)) = false)) →
    (cur = [] → i = 0 ∨ isStringByte (byteAt data (i - 1)) = false) →
    ∀ off s, (off, s) ∈ extractAux minLen remaining i cur start →
      ∃ n, s = decodeBytes (slice data off n) ∧ IsTermRun data minLen off n := by
  intro remaining
  induction remaining with
  | nil =>
    intro i start cur _ _ _ off s hmem
    simp [extractAux] at hmem
  | cons b rest ih =>
    intro i start cur hdrop hcur hemp off s hmem
    obtain ⟨hget, hb, hdrop', hilen⟩ := drop_cons_parts hdrop
    cases hq : isStringByte b with
    | true =>
      rw [extractAux, if_pos hq] at hmem
      by_cases hce : cur = []
      · subst hce
        simp only [List.isEmpty_nil, if_true, List.nil_append] at hmem
        refine ih (i + 1) i [b] hdrop' ?_ (by intro h; exact absurd h (by simp)) off s hmem
        intro _
        refine ⟨by simp, ?_, by simpa using hq, ?_⟩
        · show slice data i 1 = [b]
          have h0 := slice_extend (show i + 0 = i by simp) hget
          simpa [slice] using h0
        · exact hemp rfl
      · have hne : cur.isEmpty = false := by simpa using hce
        rw [hne] at hmem
        simp only [Bool.false_eq_true, if_false] at hmem
        obtain ⟨hsum, hslice, hall, hbdry⟩ := hcur hce
        refine ih (i + 1) start (cur ++ [b]) hdrop' ?_
          (by intro h; exact absurd h (by simp)) off s hmem
        intro _
        refine ⟨by simp [← hsum]; omega, ?_, ?_, hbdry⟩
        · have := slice_extend hsum hget
          simpa using this ▸ congrArg (· ++ [b]) hslice
        · intro x hx
          rcases List.mem_append.mp hx with h1 | h2
          · exact hall x h1
          · rcases List.mem_singleton.mp h2 with rfl
            exact hq
    | false =>
      rw [extractAux, hq] at hmem
      simp only [Bool.false_eq_true, if_false] at hmem
      by_cases hfl : minLen ≤ cur.length
      · rw [if_pos hfl] at hmem
        rcases List.mem_cons.mp hmem with heq | hmem'
        · have hoff : off = start := congrArg Prod.fst heq
          have hs : s = decodeBytes cur := congrArg Prod.snd heq
          have hcne : cur ≠ [] := by
            intro h
            rw [h] at hfl
            simp at hfl
            omega
          obtain ⟨hsum, hslice, hall, hbdry⟩ := hcur hcne
          refine ⟨cur.length, ?_, hfl, ?_, ?_, ?_, ?_⟩
          · rw [hoff, hslice, hs]
          · rw [hoff]; exact slice_qualifies hslice hall
          · rw [hoff, hsum]; exact hilen
          · rw [hoff, hsum, hb]; exact hq
          · rw [hoff]; exact hbdry
        · refine ih (i + 1) start [] hdrop' (by intro h; exact absurd rfl h) ?_ off s hmem'
          intro _
          right
          simpa [hb] using hq
      · rw [if_neg hfl] at hmem
        refine ih (i + 1) start [] hdrop' (by intro h; exact absurd rfl h) ?_ off s hmem
        intro _
        right
        simpa [hb] using hq

/-- When the remaining input starts with a qualifying run ended by a
non-qualifying byte and the pending run is non-empty, the loop flushes
exactly one record for the combined run. -/
lemma extractAux_flush (minLen : Nat) :
    ∀ (run : List Nat) (t : Nat) (rest : List Nat) (i start : Nat) (cur : List Nat),
    cur ≠ [] →
    (∀ b ∈ run, isStringByte b = true) →
    isStringByte t = false →
    minLen ≤ (cur ++ run).length →
    extractAux minLen (run ++ t :: rest) i cur start =
      (start, decodeBytes (cur ++ run)) ::
        extractAux minLen rest (i + run.length + 1) [] start := by
  intro run
  induction run with
  | nil =>
    intro t rest i start cur _ _ ht hlen
    rw [List.nil_append, extractAux, ht]
    simp only [Bool.false_eq_true, if_false]
    rw [if_pos (by simpa using hlen)]
    simp
  | cons b run' ih =>
    intro t rest i start cur hcne hrun ht hlen
    have hq : isStringByte b = true := hrun b (by simp)
    rw [List.cons_append, extractAux, if_pos hq]
    have hne : cur.isEmpty = false := by simpa using hcne
    rw [hne]
    simp only [Bool.false_eq_true, if_false]
    have h1 := ih t rest (i + 1) start (cur ++ [b])
      (by simp) (fun x hx => hrun x (by simp [hx])) ht
      (by simpa [Nat.add_comm, Nat.add_assoc, Nat.add_left_comm] using hlen)
    rw [h1]
    have h2 : cur ++ [b] ++ run' = cur ++ b :: run' := by simp
    rw [h2]
    have h3 : i + 1 + run'.length + 1 = i + (b :: run').length + 1 := by
      simp [Nat.add_comm, Nat.add_assoc, Nat.add_left_comm]
    rw [h3]

/-- Starting with an empty pending run, a qualifying run of sufficient length
ended by a non-qualifying byte is flushed with the run's start offset. -/
lemma extractAux_start (minLen : Nat) (run : List Nat) (t : Nat) (rest : List Nat)
    (i start : Nat) (hne : run ≠ []) (hrun : ∀ b ∈ run, isStringByte b = true)
    (ht : isStringByte t = false) (hlen : minLen ≤ run.length) :
    extractAux minLen (run ++ t :: rest) i [] start =
      (i, decodeBytes run) :: extractAux minLen rest (i + run.length + 1) [] i := by
  cases run with
  | nil => exact absurd rfl hne
  | cons b run' =>
    have hq : isStringByte b = true := hrun b (by simp)
    rw [List.cons_append, extractAux, if_pos hq]
    simp only [List.isEmpty_nil, if_true, List.nil_append]
    have h1 := extractAux_flush minLen run' t rest (i + 1) i [b]
      (by simp) (fun x hx => hrun x (by simp [hx])) ht (by simpa using hlen)
    rw [h1]
    have h2 : i + 1 + run'.length + 1 = i + (b :: run').length + 1 := by
      simp [Nat.add_comm, Nat.add_assoc, Nat.add_left_comm]
    rw [h2]
    rfl

/-- Processing a prefix whose last byte is non-qualifying (or which is empty
while no run is pending) leaves the loop with an empty pending run, having
emitted some records for the prefix. -/
lemma extractAux_skip (minLen : Nat) :
    ∀ (pre : List Nat) (rest : List Nat) (i start : Nat) (cur : List Nat),
    ((pre = [] ∧ cur = []) ∨ (∃ q, pre.getLast? = some q ∧ isStringByte q = false)) →
    ∃ em st2, extractAux minLen (pre ++ rest) i cur start =
      em ++ extractAux minLen rest (i + pre.length) [] st2 := by
  intro pre
  induction pre with
  | nil =>
    intro rest i start cur h
    rcases h with ⟨_, rfl⟩ | ⟨q, hq, _⟩
    · exact ⟨[], start, by simp⟩
    · simp at hq
  | cons p pre' ih =>
    intro rest i start cur h
    have hlast : pre' = [] → isStringByte p = false := by
      intro hnil
      rcases h with ⟨habs, _⟩ | ⟨q, hq, hqf⟩
      · exact absurd habs (by simp)
      · rw [hnil] at hq
        simp at hq
        rw [hq]
        exact hqf
    cases hpre' : pre' with
    | nil =>
      have hp : isStringByte p = false := hlast hpre'
      rw [List.cons_append, List.nil_append, extractAux, hp]
      simp only [Bool.false_eq_true, if_false]
      by_cases hfl : minLen ≤ cur.length
      · rw [if_pos hfl]
        exact ⟨[(start, decodeBytes cur)], start, by simp [Nat.add_comm]⟩
      · rw [if_neg hfl]
        exact ⟨[], start, by simp [Nat.add_comm]⟩
    | cons p2 pre'' =>
      have hlast2 : ∃ q, pre'.getLast? = some q ∧ isStringByte q = false := by
        rcases h with ⟨habs, _⟩ | ⟨q, hq, hqf⟩
        · exact absurd habs (by simp)
        · refine ⟨q, ?_, hqf⟩
          rw [hpre'] at hq ⊢
          rw [← hq, List.getLast?_cons_cons]
      rw [← hpre'] at *
      rw [List.cons_append, extractAux]
      cases hpq : isStringByte p with
      | true =>
        simp only [if_true]
        obtain ⟨em, st2, heq⟩ := ih rest (i + 1) (if cur.isEmpty then i else start)
          (cur ++ [p]) (Or.inr hlast2)
        refine ⟨em, st2, ?_⟩
        rw [heq]
        have : i + 1 + pre'.length = i + (p :: pre').length := by
          simp [Nat.add_comm, Nat.add_assoc, Nat.add_left_comm]
        rw [this]
      | false =>
        simp only [Bool.false_eq_true, if_false]
        by_cases hfl : minLen ≤ cur.length
        · rw [if_pos hfl]
          obtain ⟨em, st2, heq⟩ := ih rest (i + 1) start [] (Or.inr hlast2)
          refine ⟨(start, decodeBytes cur) :: em, st2, ?_⟩
          rw [heq]
          have : i + 1 + pre'.length = i + (p :: pre').length := by
            simp [Nat.add_comm, Nat.add_assoc, Nat.add_left_comm]
          rw [this]
          rfl
        · rw [if_neg hfl]
          obtain ⟨em, st2, heq⟩ := ih rest (i + 1) start [] (Or.inr hlast2)
          refine ⟨em, st2, ?_⟩
          rw [heq]
          have : i + 1 + pre'.length = i + (p :: pre').length := by
            simp [Nat.add_comm, Nat.add_assoc, Nat.add_left_comm]
          rw [this]

/-- C4 counterexample: a buffer that is a single qualifying run of length 4
(bytes of the text ABCD) with `min_length = 4` produces no record at all,
because `extract_strings` never flushes the pending run when the buffer ends;
the claim requires the record (0, ABCD) to be flushed in this case. -/
theorem c4_counterexample :
    extract_strings ([65, 66, 67, 68]) 4 = [] ∧
      (∀ b ∈ ([65, 66, 67, 68] : List Nat), isStringByte b = true) := by
  constructor
  · rfl
  · decide

/-- C4 (amended): for every byte buffer and `min_length ≥ 1`, every maximal
qualifying run of length at least `min_length` that is terminated by a
non-qualifying byte inside the buffer is flushed as a record whose offset is
the index of the first byte of the run (completeness); and every record is
the decode of such a terminated maximal run, in particular its decoded length
is at least `min_length` (soundness).  A qualifying run that reaches the end
of the buffer is not flushed. -/
theorem c4_amended (data : List Nat) (minLen : Nat) (hm : 1 ≤ minLen) :
    (∀ pre run t rest, data = pre ++ run ++ t :: rest →
      (∀ b ∈ run, isStringByte b = true) →
      isStringByte t = false →
      minLen ≤ run.length →
      (pre = [] ∨ ∃ q, pre.getLast? = some q ∧ isStringByte q = false) →
      (pre.length, decodeBytes run) ∈ extract_strings data minLen) ∧
    (∀ off s, (off, s) ∈ extract_strings data minLen →
      minLen ≤ s.length ∧
      ∃ n, s = decodeBytes (slice data off n) ∧ IsTermRun data minLen off n) := by
  constructor
  · intro pre run t rest hdata hrun ht hlen hpre
    have hne : run ≠ [] := by
      intro h
      rw [h] at hlen
      simp at hlen
      omega
    rw [hdata]
    unfold extract_strings
    have hassoc : pre ++ run ++ t :: rest = pre ++ (run ++ t :: rest) := by
      simp
    rw [hassoc]
    obtain ⟨em, st2, heq⟩ := extractAux_skip minLen pre (run ++ t :: rest) 0 0 []
      (by rcases hpre with h | h
          · exact Or.inl ⟨h, rfl⟩
          · exact Or.inr h)
    rw [heq, extractAux_start minLen run t rest (0 + pre.length) st2 hne hrun ht hlen]
    apply List.mem_append.mpr
    right
    simp [Nat.add_comm]
  · intro off s hmem
    obtain ⟨n, hdec, hterm⟩ := extractAux_sound minLen hm data data 0 0 []
      (by simp) (by intro h; exact absurd rfl h) (by intro _; exact Or.inl rfl)
      off s hmem
    refine ⟨?_, n, hdec, hterm⟩
    have hn : minLen ≤ n := hterm.1
    have hlen : s.length = (slice data off n).length := by
      rw [hdec]
      show (String.mk _).length = _
      simp [String.length, decodeBytes]
    have : off + n < data.length := hterm.2.2.1
    have hslen : (slice data off n).length = n := by
      unfold slice
      rw [List.length_take, List.length_drop]
      omega
    omega

/-- C4 witness: the amended theorem applied to the concrete buffer
65 66 67 68 0 (text ABCD followed by a NUL terminator) with
`min_length = 4`. -/
theorem c4_witness :
    (0, decodeBytes ([65, 66, 67, 68])) ∈ extract_strings ([65, 66, 67, 68, 0]) 4 := by
  have h := (c4_amended ([65, 66, 67, 68, 0]) 4 (by decide)).1
    [] ([65, 66, 67, 68]) 0 [] rfl (by decide) (by decide) (by decide) (Or.inl rfl)
  simpa using h

lemma xlookup_addXref_same (addr : Nat) (s : String) (m : List (String × List Nat)) :
    xlookup s (addXref addr s m) = xlookup s m ++ [addr] := by
  induction m with
  | nil => simp [addXref, xlookup]
  | cons p rest ih =>
    obtain ⟨k2, v⟩ := p
    by_cases h : k2 = s
    · simp [addXref, xlookup, h]
    · simp [addXref, xlookup, h, ih]

lemma xlookup_addXref_ne {k s : String} (hks : k ≠ s) (addr : Nat)
    (m : List (String × List Nat)) :
    xlookup k (addXref addr s m) = xlookup k m := by
  induction m with
  | nil => simp [addXref, xlookup, Ne.symm hks]
  | cons p rest ih =>
    obtain ⟨k2, v⟩ := p
    by_cases h : k2 = s
    · subst h
      simp [addXref, xlookup, Ne.symm hks]
    · simp [addXref, xlookup, h, ih]

lemma xlookup_foldl (k : String) :
    ∀ (strs : List (Nat × String)) (m : List (String × List Nat)),
    xlookup k (strs.foldl (fun m p => addXref p.1 p.2 m) m) =
      xlookup k m ++ (strs.filter (fun p => p.2 == k)).map Prod.fst := by
  intro strs
  induction strs with
  | nil => intro m; simp
  | cons p rest ih =>
    intro m
    obtain ⟨addr, s⟩ := p
    rw [List.foldl_cons, ih]
    by_cases h : s = k
    · subst h
      rw [xlookup_addXref_same]
      simp
    · rw [xlookup_addXref_ne (fun he => h he.symm)]
      simp [h]

/-- C8: for every string table whose offsets ascend in scan order, the xref
index stores under each key exactly the offsets of the records whose text is
that key, in scan (hence ascending) order, and no offset is stored under two
different keys. -/
theorem c8_xref_invariant (strs : List (Nat × String))
    (hasc : strs.Chain' (fun p q => p.1 < q.1)) :
    (∀ k, xlookup k (build_string_xrefs strs) =
      (strs.filter (fun p => p.2 == k)).map Prod.fst) ∧
    (∀ k, (xlookup k (build_string_xrefs strs)).Pairwise (· < ·)) ∧
    (∀ a k1 k2, a ∈ xlookup k1 (build_string_xrefs strs) →
      a ∈ xlookup k2 (build_string_xrefs strs) → k1 = k2) := by
  have hchar : ∀ k, xlookup k (build_string_xrefs strs) =
      (strs.filter (fun p => p.2 == k)).map Prod.fst := by
    intro k
    unfold build_string_xrefs
    rw [xlookup_foldl]
    simp [xlookup]
  have hpw : strs.Pairwise (fun p q => p.1 < q.1) := by
    rw [List.chain'_iff_pairwise] at hasc
    exact hasc
  refine ⟨hchar, ?_, ?_⟩
  · intro k
    rw [hchar]
    exact (List.pairwise_map.mpr ((hpw.filter _).imp (fun h => h)))
  · intro a k1 k2 h1 h2
    rw [hchar] at h1 h2
    obtain ⟨p1, hp1mem, hp1⟩ := List.mem_map.mp h1
    obtain ⟨p2, hp2mem, hp2⟩ := List.mem_map.mp h2
    have hm1 := List.mem_of_mem_filter hp1mem
    have hm2 := List.mem_of_mem_filter hp2mem
    have hk1 : p1.2 = k1 := by
      have := List.of_mem_filter hp1mem
      simpa using this
    have hk2 : p2.2 = k2 := by
      have := List.of_mem_filter hp2mem
      simpa using this
    have hnd : (strs.map Prod.fst).Nodup :=
      List.pairwise_map.mpr (hpw.imp (fun h => Nat.ne_of_lt h))
    have : p1 = p2 := List.inj_on_of_nodup_map hnd hm1 hm2 (by rw [hp1, hp2])
    rw [← hk1, ← hk2, this]

/-- C8 witness: the invariant evaluated on a concrete three-record table
with two records sharing the same text. -/
theorem c8_witness :
    xlookup (String.mk [Char.ofNat 120]) (build_string_xrefs
      [(0, String.mk [Char.ofNat 120]), (5, String.mk [Char.ofNat 121]),
        (9, String.mk [Char.ofNat 120])]) = [0, 9] := by
  have h := (c8_xref_invariant
    [(0, String.mk [Char.ofNat 120]), (5, String.mk [Char.ofNat 121]),
      (9, String.mk [Char.ofNat 120])]
    (by simp [List.chain'_cons])).1 (String.mk [Char.ofNat 120])
  rw [h]
  decide

lemma isPrefixOf_self (l : List Char) : l.isPrefixOf l = true := by
  induction l with
  | nil => rfl
  | cons a t ih => simp [List.isPrefixOf, ih]

lemma containsSub_self (l : List Char) : containsSub l l = true := by
  simp [containsSub.eq_def, isPrefixOf_self]

lemma getLastD_of_getLast? {l : List Nat} {x : Nat} (h : l.getLast? = some x) :
    l.getLastD 0 = x := by
  rw [List.getLastD_eq_getLast?, h]
  rfl

lemma clustersAux_flatten :
    ∀ (rest cur : List Nat), (clustersAux cur rest).flatten = cur ++ rest := by
  intro rest
  induction rest with
  | nil => intro cur; simp [clustersAux]
  | cons a rest ih =>
    intro cur
    rw [clustersAux]
    by_cases h : a - cur.getLastD 0 < 4096
    · rw [if_pos h, ih]
      simp
    · rw [if_neg h]
      simp [ih]

lemma clustersAux_ne_nil :
    ∀ (rest cur : List Nat), cur ≠ [] → ∀ c ∈ clustersAux cur rest, c ≠ [] := by
  intro rest
  induction rest with
  | nil =>
    intro cur hc c hmem
    simp [clustersAux] at hmem
    rw [hmem]
    exact hc
  | cons a rest ih =>
    intro cur hc c hmem
    rw [clustersAux] at hmem
    by_cases h : a - cur.getLastD 0 < 4096
    · rw [if_pos h] at hmem
      exact ih (cur ++ [a]) (by simp) c hmem
    · rw [if_neg h] at hmem
      rcases List.mem_cons.mp hmem with rfl | hmem'
      · exact hc
      · exact ih [a] (by simp) c hmem'

lemma clustersAux_head (rest cur : List Nat) :
    ∃ s, (clustersAux cur rest).head? = some (cur ++ s) := by
  induction rest generalizing cur with
  | nil => exact ⟨[], by simp [clustersAux]⟩
  | cons a rest ih =>
    rw [clustersAux]
    by_cases h : a - cur.getLastD 0 < 4096
    · rw [if_pos h]
      obtain ⟨s, hs⟩ := ih (cur ++ [a])
      exact ⟨[a] ++ s, by rw [hs]; simp⟩
    · rw [if_neg h]
      exact ⟨[], by simp⟩

lemma clustersAux_within :
    ∀ (rest cur : List Nat), cur.Chain' (fun a b => b - a < 4096) →
      ∀ c ∈ clustersAux cur rest, c.Chain' (fun a b => b - a < 4096) := by
  intro rest
  induction rest with
  | nil =>
    intro cur hc c hmem
    simp [clustersAux] at hmem
    rw [hmem]
    exact hc
  | cons a rest ih =>
    intro cur hc c hmem
    rw [clustersAux] at hmem
    by_cases h : a - cur.getLastD 0 < 4096
    · rw [if_pos h] at hmem
      refine ih (cur ++ [a]) ?_ c hmem
      rw [List.chain'_append]
      refine ⟨hc, List.chain'_singleton a, ?_⟩
      intro x hx y hy
      simp at hy
      subst hy
      rw [← getLastD_of_getLast? hx]
      exact h
    · rw [if_neg h] at hmem
      rcases List.mem_cons.mp hmem with rfl | hmem'
      · exact hc
      · exact ih [a] (List.chain'_singleton a) c hmem'

lemma clustersAux_between :
    ∀ (rest cur : List Nat),
      (clustersAux cur rest).Chain' (fun c d => 4096 ≤ d.headD 0 - c.getLastD 0) := by
  intro rest
  induction rest with
  | nil => intro cur; simp [clustersAux]
  | cons a rest ih =>
    intro cur
    rw [clustersAux]
    by_cases h : a - cur.getLastD 0 < 4096
    · rw [if_pos h]
      exact ih (cur ++ [a])
    · rw [if_neg h]
      rw [List.chain'_cons']
      refine ⟨?_, ih [a]⟩
      intro y hy
      obtain ⟨s, hs⟩ := clustersAux_head rest [a]
      rw [hs] at hy
      simp at hy
      subst hy
      simp only [List.headD_cons]
      omega

lemma clustersAux_all_near :
    ∀ (rest cur : List Nat), cur ≠ [] →
      (cur ++ rest).Chain' (fun a b => b - a < 4096) →
      clustersAux cur rest = [cur ++ rest] := by
  intro rest
  induction rest with
  | nil => intro cur _ _; simp [clustersAux]
  | cons a rest ih =>
    intro cur hcne hch
    have hcond : a - cur.getLastD 0 < 4096 := by
      rw [List.chain'_append] at hch
      obtain ⟨_, _, hlink⟩ := hch
      obtain ⟨x, hx⟩ := List.getLast?_isSome.mpr hcne |> Option.isSome_iff_exists.mp
      have := hlink x hx a (by simp)
      rw [getLastD_of_getLast? hx]
      exact this
    rw [clustersAux, if_pos hcond, ih (cur ++ [a]) (by simp) (by simpa using hch)]
    simp

/-- C1 counterexample: two offsets whose gap is exactly the proximity window
4096 are NOT placed in the same cluster (the code starts a new cluster
whenever the gap is not strictly below 4096), while the claim puts them in
one cluster because the gap does not exceed the window. -/
theorem c1_counterexample :
    buildClusters [0, 4096] = [[0], [4096]] ∧
      ¬ ∃ c ∈ buildClusters [0, 4096], 0 ∈ c ∧ 4096 ∈ c := by
  decide

/-- C1 (amended): for every non-empty ascending offset list, the clusters
concatenate back to the input, every cluster is non-empty and has all
consecutive gaps strictly below 4096, consecutive clusters are separated by
a gap of at least 4096 (so two consecutive offsets share a cluster exactly
when their gap is strictly below the 4096 window), and the offsets
100, 200, 5000 yield exactly the clusters 100 200 and 5000. -/
theorem c1_amended (ms : List Nat) (h1 : ms ≠ []) (h2 : ms.Chain' (· ≤ ·)) :
    (buildClusters ms).flatten = ms ∧
    (∀ c ∈ buildClusters ms, c ≠ [] ∧ c.Chain' (fun a b => b - a < 4096)) ∧
    (buildClusters ms).Chain' (fun c d => 4096 ≤ d.headD 0 - c.getLastD 0) ∧
    buildClusters [100, 200, 5000] = [[100, 200], [5000]] := by
  obtain ⟨m, rest, rfl⟩ : ∃ m rest, ms = m :: rest := by
    cases ms with
    | nil => exact absurd rfl h1
    | cons m rest => exact ⟨m, rest, rfl⟩
  refine ⟨?_, ?_, ?_, by decide⟩
  · show (clustersAux [m] rest).flatten = m :: rest
    rw [clustersAux_flatten]
    rfl
  · intro c hc
    exact ⟨clustersAux_ne_nil rest [m] (by simp) c hc,
      clustersAux_within rest [m] (List.chain'_singleton m) c hc⟩
  · exact clustersAux_between rest [m]

/-- C1 witness: the amended theorem instantiated at the spec's example list
100, 200, 5000 (ascending, non-empty). -/
theorem c1_witness : buildClusters [100, 200, 5000] = [[100, 200], [5000]] :=
  (c1_amended [100, 200, 5000] (by decide) (by norm_num [List.chain'_cons])).2.2.2

/-- C2 counterexample: a single cluster of the two offsets 100 and 200 gets
the representative 200 (the element at index `len // 2 = 1`), not the
lower-index element 100 required by the claim's tie-break. -/
theorem c2_counterexample :
    find_function_by_strings [("a", [100, 200])] ["a"] = [(200, 1)] := by
  unfold find_function_by_strings
  rw [show collectMatches [("a", [100, 200])] ["a"] = [100, 200] from by decide]
  rw [show pipelineClusters [("a", [100, 200])] ["a"] = [[100, 200]] from by decide]
  norm_num [clusterResults, List.insertionSort, List.orderedInsert]

/-- C2 (amended): for every non-empty cluster (here: an ascending offset
list whose consecutive gaps stay below the window, matched through a
one-signature index so that it forms a single cluster), the representative
offset is the element at index `length / 2`: the middle element on
odd-length clusters and the higher-index of the two central elements on
even-length clusters, so for a cluster of two offsets the second, larger
offset is the representative. -/
theorem c2_amended (c : List Nat) (h1 : c ≠ [])
    (h2 : c.Chain' (fun a b => a ≤ b ∧ b - a < 4096)) (k : String) :
    find_function_by_strings [(k, c)] [k] = [(c.getD (c.length / 2) 0, 1)] := by
  have hcm : collectMatches [(k, c)] [k] = c := by
    simp [collectMatches, strContains, containsSub_self]
  have hsort : c.insertionSort (· ≤ ·) = c := by
    apply List.Sorted.insertionSort_eq
    exact List.chain'_iff_pairwise.mp (h2.imp (fun _ _ hab => hab.1))
  have hclu : pipelineClusters [(k, c)] [k] = [c] := by
    unfold pipelineClusters
    rw [hcm, hsort]
    cases c with
    | nil => exact absurd rfl h1
    | cons m rest =>
      show clustersAux [m] rest = [m :: rest]
      have h3 := clustersAux_all_near rest [m] (by simp)
        (by simpa using h2.imp (fun _ _ hab => hab.2))
      simpa using h3
  unfold find_function_by_strings
  rw [hcm, hclu]
  rw [show c.isEmpty = false from by
    cases c with
    | nil => exact absurd rfl h1
    | cons m rest => rfl]
  simp only [Bool.false_eq_true, if_false]
  have hconf : min ((c.length : ℚ) / ((List.length [k] : Nat) : ℚ)) 1 = 1 := by
    simp only [List.length_singleton, Nat.cast_one, div_one]
    apply min_eq_right
    have hp : 1 ≤ c.length := List.length_pos.mpr h1
    exact_mod_cast hp
  unfold clusterResults
  simp only [List.map_cons, List.map_nil, hconf]
  simp [List.insertionSort, List.orderedInsert]

/-- C2 witness: the amended theorem applied to the two-offset cluster
100, 200, giving the second offset 200 as representative. -/
theorem c2_witness :
    find_function_by_strings [("k", [100, 200])] ["k"] = [(200, 1)] := by
  have h := c2_amended [100, 200] (by decide) (by norm_num [List.chain'_cons]) ("k")
  simpa using h

/-- Results of `find_function_by_strings` are sorted by weakly descending
confidence. -/
lemma ffbs_sorted (xrefs : List (String × List Nat)) (targets : List String) :
    (find_function_by_strings xrefs targets).Pairwise (fun a b => b.2 ≤ a.2) := by
  unfold find_function_by_strings
  by_cases h : (collectMatches xrefs targets).isEmpty
  · rw [if_pos h]
    exact List.Pairwise.nil
  · rw [if_neg h]
    exact List.Pairwise.sublist (List.take_sublist 5 _)
      (List.sorted_insertionSort (fun a b : Nat × ℚ => b.2 ≤ a.2) _)

/-- Every result of `find_function_by_strings` arises from one of the
pipeline's clusters via the center/confidence formula. -/
lemma ffbs_mem (xrefs : List (String × List Nat)) (targets : List String)
    {off : Nat} {conf : ℚ}
    (hmem : (off, conf) ∈ find_function_by_strings xrefs targets) :
    ∃ c ∈ pipelineClusters xrefs targets,
      off = c.getD (c.length / 2) 0 ∧
      conf = min ((c.length : ℚ) / (targets.length : ℚ)) 1 := by
  unfold find_function_by_strings at hmem
  by_cases h : (collectMatches xrefs targets).isEmpty
  · rw [if_pos h] at hmem
    simp at hmem
  · rw [if_neg h] at hmem
    have h1 := List.mem_of_mem_take hmem
    have h2 := (List.perm_insertionSort (fun a b : Nat × ℚ => b.2 ≤ a.2) _).mem_iff.mp h1
    unfold clusterResults at h2
    obtain ⟨c, hc, heq⟩ := List.mem_map.mp h2
    refine ⟨c, hc, ?_, ?_⟩
    · exact (congrArg Prod.fst heq).symm
    · exact (congrArg Prod.snd heq).symm

/-- In a weakly descending list, a `find?` hit for the strict threshold
predicate dominates every element of the list. -/
lemma find?_first_max {l : List (Nat × ℚ)}
    (hs : l.Pairwise (fun a b => b.2 ≤ a.2)) {r : Nat × ℚ}
    (hf : l.find? (fun x => decide ((3 : ℚ)/10 < x.2)) = some r) :
    ∀ x ∈ l, x.2 ≤ r.2 := by
  induction l with
  | nil => intro x hx; simp at hx
  | cons a t ih =>
    by_cases hp : (3 : ℚ)/10 < a.2
    · rw [List.find?_cons_of_pos t (by simpa using hp)] at hf
      have hra : r = a := by simpa using hf.symm
      subst hra
      intro x hx
      rcases List.mem_cons.mp hx with rfl | hx'
      · exact le_refl _
      · exact (List.pairwise_cons.mp hs).1 x hx'
    · rw [List.find?_cons_of_neg t (by simpa using hp)] at hf
      have hr3 : (3 : ℚ)/10 < r.2 := by
        have := List.find?_some hf
        simpa using this
      intro x hx
      rcases List.mem_cons.mp hx with rfl | hx'
      · exact le_trans (le_of_not_lt hp) (le_of_lt hr3)
      · exact ih hs.of_cons hf x hx'

/-- C3: every result of the signature matcher scores a cluster with
`min(size / number_of_characteristic_substrings, 1)`; results are sorted by
descending confidence; every function kept by `match_known_functions` has
confidence strictly above 3/10, comes from its signature's candidate list
and dominates all that signature's candidates (it is the first, i.e.
highest-confidence, match); and a cluster of size 2 against 3 substrings
scores 2/3. -/
theorem c3_confidence_ranking (xrefs : List (String × List Nat))
    (targets : List String) :
    (∀ off conf, (off, conf) ∈ find_function_by_strings xrefs targets →
      ∃ c ∈ pipelineClusters xrefs targets,
        off = c.getD (c.length / 2) 0 ∧
        conf = min ((c.length : ℚ) / (targets.length : ℚ)) 1) ∧
    (find_function_by_strings xrefs targets).Pairwise (fun a b => b.2 ≤ a.2) ∧
    (∀ f ∈ match_known_functions xrefs,
      (3 : ℚ)/10 < f.confidence ∧
      ∃ sig ∈ KNOWN_SIGNATURES, f.name = sig.name ∧
        (f.address, f.confidence) ∈ find_function_by_strings xrefs sig.strings ∧
        ∀ r ∈ find_function_by_strings xrefs sig.strings, r.2 ≤ f.confidence) ∧
    find_function_by_strings [("a", [100]), ("b", [200])] (["a", "b", "c"]) =
      [(200, (2 : ℚ)/3)] := by
  refine ⟨fun off conf h => ffbs_mem xrefs targets h, ffbs_sorted xrefs targets, ?_, ?_⟩
  · intro f hf
    unfold match_known_functions at hf
    obtain ⟨sig, hsig, hms⟩ := List.mem_filterMap.mp hf
    unfold matchSignature at hms
    obtain ⟨r, hfind, hmk⟩ := Option.map_eq_some'.mp hms
    have hconf : f.confidence = r.2 := by rw [← hmk]
    have haddr : f.address = r.1 := by rw [← hmk]
    have hname : f.name = sig.name := by rw [← hmk]
    refine ⟨?_, sig, hsig, hname, ?_, ?_⟩
    · rw [hconf]
      have := List.find?_some hfind
      simpa using this
    · rw [haddr, hconf]
      exact List.mem_of_find?_eq_some hfind
    · intro r' hr'
      rw [hconf]
      exact find?_first_max (ffbs_sorted xrefs sig.strings) hfind r' hr'
  · unfold find_function_by_strings
    rw [show collectMatches [("a", [100]), ("b", [200])] (["a", "b", "c"]) =
      [100, 200] from by decide]
    rw [show pipelineClusters [("a", [100]), ("b", [200])] (["a", "b", "c"]) =
      [[100, 200]] from by decide]
    norm_num [clusterResults, List.insertionSort, List.orderedInsert]

/-- C3 witness: the theorem's cluster-provenance conjunct instantiated at
the concrete one-cluster index of its last conjunct. -/
theorem c3_witness :
    ∃ c ∈ pipelineClusters [("a", [100]), ("b", [200])] (["a", "b", "c"]),
      200 = c.getD (c.length / 2) 0 ∧
      (2 : ℚ)/3 = min ((c.length : ℚ) / ((["a", "b", "c"] : List String).length : ℚ)) 1 := by
  refine (c3_confidence_ranking [("a", [100]), ("b", [200])] (["a", "b", "c"])).1
    200 ((2 : ℚ)/3) ?_
  exact (c3_confidence_ranking [("a", [100]), ("b", [200])] (["a", "b", "c"])).2.2.2 ▸
    List.mem_singleton.mpr rfl

/-- C10: the signature match operation returns at most 5 candidates; on an
index whose offsets form 6 clusters (of sizes 6, 5, 4, 3, 2, 1 against 6
substrings, hence distinct confidences), the lowest-confidence cluster is
silently dropped by the `[:5]` truncation before any thresholding. -/
theorem c10_top5 :
    (∀ xrefs targets, (find_function_by_strings xrefs targets).length ≤ 5) ∧
    pipelineClusters
        [("a", [0, 1, 2, 3, 4, 5, 10000, 10001, 10002, 10003, 10004,
          20000, 20001, 20002, 20003, 30000, 30001, 30002, 40000, 40001, 50000])]
        (["a", "b", "c", "d", "e", "f"]) =
      [[0, 1, 2, 3, 4, 5], [10000, 10001, 10002, 10003, 10004],
        [20000, 20001, 20002, 20003], [30000, 30001, 30002], [40000, 40001],
        [50000]] ∧
    find_function_by_strings
        [("a", [0, 1, 2, 3, 4, 5, 10000, 10001, 10002, 10003, 10004,
          20000, 20001, 20002, 20003, 30000, 30001, 30002, 40000, 40001, 50000])]
        (["a", "b", "c", "d", "e", "f"]) =
      [(3, 1), (10002, (5 : ℚ)/6), (20002, (2 : ℚ)/3), (30001, (1 : ℚ)/2),
        (40001, (1 : ℚ)/3)] ∧
    (50000, (1 : ℚ)/6) ∉
      find_function_by_strings
        [("a", [0, 1, 2, 3, 4, 5, 10000, 10001, 10002, 10003, 10004,
          20000, 20001, 20002, 20003, 30000, 30001, 30002, 40000, 40001, 50000])]
        (["a", "b", "c", "d", "e", "f"]) := by
  have hlen : ∀ (xrefs : List (String × List Nat)) (targets : List String),
      (find_function_by_strings xrefs targets).length ≤ 5 := by
    intro xrefs targets
    unfold find_function_by_strings
    by_cases h : (collectMatches xrefs targets).isEmpty
    · rw [if_pos h]
      simp
    · rw [if_neg h]
      exact List.length_take_le 5 _
  have hclu : pipelineClusters
      [("a", [0, 1, 2, 3, 4, 5, 10000, 10001, 10002, 10003, 10004,
        20000, 20001, 20002, 20003, 30000, 30001, 30002, 40000, 40001, 50000])]
      (["a", "b", "c", "d", "e", "f"]) =
      [[0, 1, 2, 3, 4, 5], [10000, 10001, 10002, 10003, 10004],
        [20000, 20001, 20002, 20003], [30000, 30001, 30002], [40000, 40001],
        [50000]] := by decide
  have hres : find_function_by_strings
      [("a", [0, 1, 2, 3, 4, 5, 10000, 10001, 10002, 10003, 10004,
        20000, 20001, 20002, 20003, 30000, 30001, 30002, 40000, 40001, 50000])]
      (["a", "b", "c", "d", "e", "f"]) =
      [(3, 1), (10002, (5 : ℚ)/6), (20002, (2 : ℚ)/3), (30001, (1 : ℚ)/2),
        (40001, (1 : ℚ)/3)] := by
    unfold find_function_by_strings
    rw [hclu]
    rw [show (collectMatches
      [("a", [0, 1, 2, 3, 4, 5, 10000, 10001, 10002, 10003, 10004,
        20000, 20001, 20002, 20003, 30000, 30001, 30002, 40000, 40001, 50000])]
      (["a", "b", "c", "d", "e", "f"])).isEmpty = false from by decide]
    norm_num [clusterResults, min_def, List.insertionSort, List.orderedInsert]
  refine ⟨hlen, hclu, hres, ?_⟩
  rw [hres]
  norm_num

/-- A `filterMap` over a duplicate-free list whose function hits exactly one
element yields exactly that element's image. -/
lemma filterMap_eq_singleton {α β : Type} {l : List α} {f : α → Option β}
    {p : α} {b : β} (hnd : l.Nodup) (hp : p ∈ l) (hfp : f p = some b)
    (hother : ∀ q ∈ l, q ≠ p → f q = none) : l.filterMap f = [b] := by
  induction l with
  | nil => simp at hp
  | cons a t ih =>
    rcases List.mem_cons.mp hp with rfl | hpt
    · rw [List.filterMap_cons, hfp]
      have ht : t.filterMap f = [] := by
        rw [List.filterMap_eq_nil_iff]
        intro q hq
        refine hother q (List.mem_cons_of_mem p hq) ?_
        intro hqa
        subst hqa
        exact (List.nodup_cons.mp hnd).1 hq
      rw [ht]
    · have ha : f a = none := by
        refine hother a (List.mem_cons_self a t) ?_
        intro haq
        subst haq
        exact (List.nodup_cons.mp hnd).1 hpt
      rw [List.filterMap_cons, ha]
      exact ih (List.nodup_cons.mp hnd).2 hpt
        (fun q hq hqp => hother q (List.mem_cons_of_mem a hq) hqp)

/-- C6: a buffer whose scan range contains exactly one prologue position
yields exactly one candidate range, spanning from the prologue start through
the epilogue end, when the epilogue search succeeds; and no candidate at all
when no epilogue is found in the window. -/
theorem c6_boundaries (data : List Nat) (p : Nat)
    (hp : p ∈ scanPositions data)
    (hpro : isPrologueAt data p = true)
    (huniq : ∀ i ∈ scanPositions data, isPrologueAt data i = true → i = p) :
    (∀ e, epilogueSearch data p = some e →
      find_function_boundaries data = [(p, e + 2)]) ∧
    (epilogueSearch data p = none → find_function_boundaries data = []) := by
  have hnd : (scanPositions data).Nodup := List.nodup_range' 0 (numScan data) 2
  have hother : ∀ q ∈ scanPositions data, q ≠ p → candidateAt data q = none := by
    intro q hq hqp
    unfold candidateAt
    cases hb : isPrologueAt data q with
    | true => exact absurd (huniq q hq hb) hqp
    | false => simp
  constructor
  · intro e he
    have hfp : candidateAt data p = some (p, e + 2) := by
      unfold candidateAt
      rw [if_pos hpro, he]
      rfl
    unfold find_function_boundaries allCandidates
    rw [filterMap_eq_singleton hnd hp hfp hother]
    rfl
  · intro he
    have hall : allCandidates data = [] := by
      unfold allCandidates
      rw [List.filterMap_eq_nil_iff]
      intro q hq
      by_cases hqp : q = p
      · subst hqp
        unfold candidateAt
        rw [if_pos hpro, he]
        rfl
      · exact hother q hq hqp
    unfold find_function_boundaries
    rw [hall]
    rfl

/-- C6 witness: a 10-byte buffer with the prologue 01 11 at offset 0 and the
epilogue 82 80 at offset 6 yields exactly the candidate range (0, 8). -/
theorem c6_witness :
    find_function_boundaries [1, 17, 0, 0, 0, 0, 130, 128, 0, 0] = [(0, 8)] := by
  exact (c6_boundaries [1, 17, 0, 0, 0, 0, 130, 128, 0, 0] 0
    (by decide) (by decide) (by decide)).1 6 (by decide)

/-- C7 counterexample: with prologues at offsets 0 and 2 and an epilogue at
offset 6, the scanner emits the overlapping candidates (0, 8) and (2, 8):
after emitting (0, 8) it continues at offset 2 inside that range, not after
the range's end 8 as the claim states (which would yield only [(0, 8)]). -/
theorem c7_counterexample :
    find_function_boundaries [1, 17, 1, 17, 0, 0, 130, 128, 0, 0] =
      [(0, 8), (2, 8)] := by
  decide

lemma scanFrom_eq_filterMap (data : List Nat) :
    ∀ (n i : Nat), scanFrom data n i = (List.range' i n 2).filterMap (candidateAt data) := by
  intro n
  induction n with
  | zero => intro i; simp [scanFrom]
  | succ n ih =>
    intro i
    rw [List.range'_succ, List.filterMap_cons, scanFrom]
    cases h : candidateAt data i with
    | none => rw [ih (i + 2)]
    | some c => rw [ih (i + 2)]

/-- C7 (amended): the boundary scan visits every 2-byte-aligned position of
the scan range independently — after a prologue match at `i`, with or
without an emitted candidate, scanning continues at `i + 2` (formalised by
the equality with the sequential scan `scanFrom`, which always advances by
2); in particular the position right after an emitted candidate's prologue
is still scanned and its own candidate is also collected. -/
theorem c7_scan_progression (data : List Nat) :
    find_function_boundaries data = (scanFrom data (numScan data) 0).take 200 ∧
    (∀ i e, i ∈ scanPositions data → candidateAt data i = some (i, e) →
      i + 2 ∈ scanPositions data → ∀ c, candidateAt data (i + 2) = some c →
        c ∈ allCandidates data) := by
  constructor
  · rw [scanFrom_eq_filterMap data (numScan data) 0]
    rfl
  · intro i e _ _ hmem c hc
    exact List.mem_filterMap.mpr ⟨i + 2, hmem, hc⟩

/-- C7 witness: on the two-prologue buffer of the counterexample, the
candidate of the position 2 right after the emitted range's prologue is
still collected. -/
theorem c7_witness :
    (2, 8) ∈ allCandidates [1, 17, 1, 17, 0, 0, 130, 128, 0, 0] := by
  exact (c7_scan_progression [1, 17, 1, 17, 0, 0, 130, 128, 0, 0]).2 0 8
    (by decide) (by decide) (by decide) (2, 8) (by decide)

/-- C5: if the disassembly backend produces no output for one candidate
range (a timeout or tool failure), the analysis of that range returns a
failure value rather than raising, the caller's run still analyzes every
other range (the summaries of the run equal those of the run without the
failing range), and the run-level count of skipped ranges is exactly one
larger. -/
theorem c5_backend_failure (strs : List (Nat × String))
    (B : Nat × Nat → Option (List String)) (b1 b2 : List (Nat × Nat))
    (r : Nat × Nat) (hB : B r = none)
    (hlen : (b1 ++ r :: b2).length ≤ 50) :
    processRange strs B r = none ∧
    runSummaries strs B (b1 ++ r :: b2) = runSummaries strs B (b1 ++ b2) ∧
    skippedCount strs B (b1 ++ r :: b2) = skippedCount strs B (b1 ++ b2) + 1 := by
  have hfail : processRange strs B r = none := by
    unfold processRange disassemble_range
    rw [hB]
    rfl
  have hlen2 : (b1 ++ b2).length ≤ 50 := by
    simp [List.length_append] at hlen ⊢
    omega
  have htake : (b1 ++ r :: b2).take 50 = b1 ++ r :: b2 := List.take_of_length_le hlen
  have htake2 : (b1 ++ b2).take 50 = b1 ++ b2 := List.take_of_length_le hlen2
  refine ⟨hfail, ?_, ?_⟩
  · unfold runSummaries runOutcomes
    rw [htake, htake2]
    simp [hfail]
  · unfold skippedCount runOutcomes
    rw [htake, htake2]
    simp [List.countP_append, List.countP_cons, hfail]
    omega

/-- C5 witness: a one-range run whose backend yields nothing produces no
summary and exactly one skipped range. -/
theorem c5_witness :
    processRange [] (fun _ => none) (0, 2) = none ∧
    runSummaries [] (fun _ => none) [(0, 2)] = runSummaries [] (fun _ => none) [] ∧
    skippedCount [] (fun _ => none) [(0, 2)] = skippedCount [] (fun _ => none) [] + 1 :=
  c5_backend_failure [] (fun _ => none) [] [] (0, 2) rfl (by decide)

lemma freq_fold_bounds :
    ∀ (l acc : List (Nat × Nat)),
    (∀ p ∈ acc, 25 ≤ p.1 ∧ p.1 ≤ 100 ∧ 500 ≤ p.2 ∧ p.2 ≤ 1500) →
    ∀ p ∈ l.foldl (fun acc lh =>
      if 25 ≤ lh.1 ∧ lh.1 ≤ 100 ∧ 500 ≤ lh.2 ∧ lh.2 ≤ 1500 then acc ++ [lh]
      else acc) acc,
      25 ≤ p.1 ∧ p.1 ≤ 100 ∧ 500 ≤ p.2 ∧ p.2 ≤ 1500 := by
  intro l
  induction l with
  | nil => intro acc hacc p hp; exact hacc p hp
  | cons a t ih =>
    intro acc hacc p hp
    rw [List.foldl_cons] at hp
    by_cases hc : 25 ≤ a.1 ∧ a.1 ≤ 100 ∧ 500 ≤ a.2 ∧ a.2 ≤ 1500
    · rw [if_pos hc] at hp
      refine ih (acc ++ [a]) ?_ p hp
      intro q hq
      rcases List.mem_append.mp hq with h1 | h2
      · exact hacc q h1
      · rcases List.mem_singleton.mp h2 with rfl
        exact hc
    · rw [if_neg hc] at hp
      exact ih acc hacc p hp

lemma dedup_fold_nodup :
    ∀ (l acc : List String), acc.Nodup →
    (l.foldl (fun acc o => if o ∈ acc then acc else acc ++ [o]) acc).Nodup := by
  intro l
  induction l with
  | nil => intro acc hacc; exact hacc
  | cons a t ih =>
    intro acc hacc
    rw [List.foldl_cons]
    by_cases hc : a ∈ acc
    · rw [if_pos hc]
      exact ih acc hacc
    · rw [if_neg hc]
      refine ih (acc ++ [a]) ?_
      simp [List.nodup_append, hacc, hc]

/-- C9 counterexample: two occurrences of a voltage-level phrase with the
same value 40 yield the duplicated list [40, 40]; the claim requires every
category, voltage levels included, to be deduplicated. -/
theorem c9_counterexample :
    (extract_avalon10_parameters
      (strBytes ("voltage_level 40 voltage_level 40"))).voltage_levels = [40, 40] := by
  decide

/-- C9 (amended): the range pair 25, 800 inside the accepted domain bounds
is retained and the pair 3, 9000 outside them is rejected; every retained
range pair lies inside the bounds; the command-option tokens are
deduplicated (shown in general and on a duplicated concrete buffer); but
voltage levels are appended without deduplication. -/
theorem c9_extractor (data : List Nat) :
    (extract_avalon10_parameters
      (strBytes ("range [25, 800]"))).frequency_options = [(25, 800)] ∧
    (extract_avalon10_parameters
      (strBytes ("range [3, 9000]"))).frequency_options = [] ∧
    (∀ p ∈ (extract_avalon10_parameters data).frequency_options,
      25 ≤ p.1 ∧ p.1 ≤ 100 ∧ 500 ≤ p.2 ∧ p.2 ≤ 1500) ∧
    (extract_avalon10_parameters data).command_options.Nodup ∧
    (extract_avalon10_parameters
      (strBytes ("--avalon10-freq --avalon10-freq"))).command_options =
      [decodeBytes [102, 114, 101, 113]] ∧
    (extract_avalon10_parameters
      (strBytes ("voltage_level 40, voltage_level 40"))).voltage_levels = [40, 40] := by
  refine ⟨by decide, by decide, ?_, ?_, by decide, by decide⟩
  · intro p hp
    dsimp only [extract_avalon10_parameters] at hp
    exact freq_fold_bounds (finditer matchRangeAt data) [] (by simp) p hp
  · dsimp only [extract_avalon10_parameters]
    exact dedup_fold_nodup (finditer matchOptionAt data) [] List.nodup_nil

/-- C9 witness: the bounds conjunct evaluated at the retained concrete pair
25, 800. -/
theorem c9_witness :
    25 ≤ (25, 800).1 ∧ (25, 800).1 ≤ 100 ∧ 500 ≤ (25, 800).2 ∧ (25, 800).2 ≤ 1500 :=
  (c9_extractor (strBytes ("range [25, 800]"))).2.2.1 (25, 800) (by decide)

end A1126
